import Mathlib

/-!
Verification of the fused row-wise softmax kernels in
`python/tutorials/02-fused-softmax.py`.

The embedding models:
* matrix elements as exact rationals (the spec's claims are stated for exact
  arithmetic, "within tolerance" for floats);
* the IEEE special values produced by the `-inf` masking sentinel with an
  explicit value type `V` (`nan`, `neginf`, `posinf`, `fin q`);
* the elementwise exponential `tl.exp` as an abstract function `e : ℚ → ℚ`
  lifted to `V` (so `exp (-inf) = 0`, `exp nan = nan`), with positivity as an
  explicit hypothesis where a claim needs it;
* device memory as flat integer-addressed storage `Mem := ℤ → V`, with the
  kernels' pointer arithmetic (`row_idx * stride + col_offset`) kept intact;
* Python `range(start, stop, step)` (used by the big-row kernel's loops)
  faithfully, including negative steps;
* each kernel instrumented with a trace of its `tl.load` / `tl.store`
  operations (identified by the tile's column start) and with its computed
  row maximum, denominator and on-chip quotient tile, so that the memory
  traffic and degenerate-row claims can be stated.
-/

namespace FusedSoftmax

/-- Extended value: a finite rational or one of the IEEE special values that
the `-inf` masking sentinel can create (`tl.load(..., other=-float('inf'))`). -/
inductive V where
  | nan : V
  | neginf : V
  | posinf : V
  | fin : ℚ → V
deriving DecidableEq

/-- IEEE-style subtraction on extended values (`row - tl.max(row)`). -/
def subV : V → V → V
  | V.nan, _ => V.nan
  | _, V.nan => V.nan
  | V.fin a, V.fin b => V.fin (a - b)
  | V.fin _, V.neginf => V.posinf
  | V.fin _, V.posinf => V.neginf
  | V.neginf, V.neginf => V.nan
  | V.neginf, _ => V.neginf
  | V.posinf, V.posinf => V.nan
  | V.posinf, _ => V.posinf

/-- IEEE-style addition on extended values (sum accumulation). -/
def addV : V → V → V
  | V.nan, _ => V.nan
  | _, V.nan => V.nan
  | V.fin a, V.fin b => V.fin (a + b)
  | V.neginf, V.posinf => V.nan
  | V.posinf, V.neginf => V.nan
  | V.neginf, _ => V.neginf
  | _, V.neginf => V.neginf
  | V.posinf, _ => V.posinf
  | _, V.posinf => V.posinf

/-- IEEE-style binary maximum (`tl.maximum`, and the reduction `tl.max`). -/
def maxV : V → V → V
  | V.nan, _ => V.nan
  | _, V.nan => V.nan
  | V.neginf, v => v
  | v, V.neginf => v
  | V.posinf, _ => V.posinf
  | _, V.posinf => V.posinf
  | V.fin a, V.fin b => V.fin (max a b)

/-- IEEE-style division (`numerator / denominator`). -/
def divV : V → V → V
  | V.nan, _ => V.nan
  | _, V.nan => V.nan
  | V.fin a, V.fin b =>
      if b = 0 then (if a = 0 then V.nan else if 0 < a then V.posinf else V.neginf)
      else V.fin (a / b)
  | V.fin _, V.posinf => V.fin 0
  | V.fin _, V.neginf => V.fin 0
  | V.neginf, V.fin b => if 0 ≤ b then V.neginf else V.posinf
  | V.posinf, V.fin b => if 0 ≤ b then V.posinf else V.neginf
  | _, _ => V.nan

/-- `tl.exp` lifted to extended values from an abstract finite exponential
`e : ℚ → ℚ`: `exp (-inf) = 0`, `exp (+inf) = +inf`, `exp nan = nan`. -/
def expV (e : ℚ → ℚ) : V → V
  | V.nan => V.nan
  | V.neginf => V.fin 0
  | V.posinf => V.posinf
  | V.fin a => V.fin (e a)

/-- Flat device memory, addressed by integers (pointer arithmetic is kept). -/
def Mem : Type := ℤ → V

/-- Single-cell memory write. -/
def update (m : Mem) (a : ℤ) (v : V) : Mem :=
  fun a' => if a' = a then v else m a'

/-- A memory-traffic event: one `tl.load` or `tl.store` of a tile, identified
by the tile's starting column offset within the row. -/
inductive Event where
  | load : ℤ → Event
  | store : ℤ → Event
deriving DecidableEq

/-- Number of elements of Python's `range(start, stop, step)`. -/
def pyRangeLen (start stop step : ℤ) : ℕ :=
  if 0 < step then ((stop - start + step - 1) / step).toNat
  else if step < 0 then ((start - stop - step - 1) / (-step)).toNat
  else 0

/-- Python's `range(start, stop, step)` as a list of integers. -/
def pyRange (start stop step : ℤ) : List ℤ :=
  (List.range (pyRangeLen start stop step)).map (fun i : ℕ => start + step * (i : ℤ))

/-- Tile Loader: `tl.load(row_start_ptr + col_offsets, mask=col_offsets < n_cols,
other=-float('inf'))` with `col_offsets = col_start + tl.arange(0, BLOCK_SIZE)`.
Position `i` of the on-chip buffer holds the row element at column
`col_start + i` if that column is `< n_cols`, else the sentinel `-inf`. -/
def loadTile (x : ℤ → ℚ) (rowbase cs : ℤ) (N : ℕ) : ℕ → V :=
  fun i => if cs + (i : ℤ) < (N : ℤ) then V.fin (x (rowbase + cs + (i : ℤ))) else V.neginf

/-- Masked store: `tl.store(output_row_start_ptr + col_offsets, vals,
mask=col_offsets < n_cols)`; out-of-range positions are silently dropped. -/
def storeTile (m : Mem) (rowbase cs : ℤ) (N : ℕ) (f : ℕ → V) (BS : ℕ) : Mem :=
  (List.range BS).foldl
    (fun m' (i : ℕ) =>
      if cs + (i : ℤ) < (N : ℤ) then update m' (rowbase + cs + (i : ℤ)) (f i) else m') m

/-- `tl.max(row, axis=0)` over a `BS`-element on-chip buffer. -/
def reduceMax (f : ℕ → V) (BS : ℕ) : V :=
  (List.range BS).foldl (fun a i => maxV a (f i)) V.neginf

/-- `tl.sum(row, axis=0)` over a `BS`-element on-chip buffer. -/
def reduceSum (f : ℕ → V) (BS : ℕ) : V :=
  (List.range BS).foldl (fun a i => addV a (f i)) (V.fin 0)

/-- Result of one kernel instance: the updated output memory, the
load/store trace, and the instrumented on-chip intermediates (computed row
maximum, denominator, and quotient tile before the masked store). -/
structure KResult where
  out : Mem
  trace : List Event
  rowMax : V
  denom : V
  vals : ℕ → V

/-- The Single-Tile Path, `softmax_kernel`: one masked load of the whole
padded row, max-reduction, shift, exponentiation, sum-reduction, division,
one masked store.  Arguments follow the source signature; `r` is
`tl.program_id(0)`, `e` models `tl.exp`, `B` is `meta['BLOCK_SIZE']`. -/
def softmax_kernel (out0 : Mem) (x : ℤ → ℚ) (istr ostr : ℤ) (N : ℕ) (r : ℤ)
    (e : ℚ → ℚ) (B : ℕ) : KResult :=
  let row_start := r * istr
  let row := loadTile x row_start 0 N
  let rowMaxV := reduceMax row B
  let row_minus_max := fun c => subV (row c) rowMaxV
  let numerator := fun c => expV e (row_minus_max c)
  let denominator := reduceSum numerator B
  let softmax_output := fun c => divV (numerator c) denominator
  let output_row_start := r * ostr
  { out := storeTile out0 output_row_start 0 N softmax_output B
    trace := [Event.load 0, Event.store 0]
    rowMax := rowMaxV
    denom := denominator
    vals := softmax_output }

/-- The Multi-Tile Path, `softmax_kernel_big_row`: `N_BLOCKS = 2` tiles of
size `meta['BLOCK_SIZE'] // 2`.  Phase A (forward loop) computes the global
maximum, leaving the last tile cached on chip; Phase B seeds the sum from the
cached tile and reloads the remaining tiles in reverse order, leaving tile 0
cached; Phase C stores tile 0 from the cache, then reloads and stores the
remaining tiles.  State threads `(row, accumulator, trace)` through each loop
exactly as the source does. -/
def softmax_kernel_big_row (out0 : Mem) (x : ℤ → ℚ) (istr ostr : ℤ) (N : ℕ)
    (r : ℤ) (e : ℚ → ℚ) (Bmeta : ℕ) : KResult :=
  let row_start := r * istr
  let N_BLOCKS : ℤ := 2
  let BS : ℕ := Bmeta / 2
  let row0 : ℕ → V := fun _ => V.fin 0
  let stA :=
    (pyRange 0 (N_BLOCKS * (BS : ℤ)) (BS : ℤ)).foldl
      (fun (s : (ℕ → V) × V × List Event) cs =>
        let row := loadTile x row_start cs N
        (row, maxV s.2.1 (reduceMax row BS), s.2.2 ++ [Event.load cs]))
      (row0, V.neginf, [])
  let rowA := stA.1
  let tl_max := stA.2.1
  let tl_sum0 := reduceSum (fun i => expV e (subV (rowA i) tl_max)) BS
  let stB :=
    (pyRange ((N_BLOCKS - 2) * (BS : ℤ)) (-1) (-(BS : ℤ))).foldl
      (fun (s : (ℕ → V) × V × List Event) cs =>
        let row := loadTile x row_start cs N
        (row, addV s.2.1 (reduceSum (fun i => expV e (subV (row i) tl_max)) BS),
          s.2.2 ++ [Event.load cs]))
      (rowA, tl_sum0, stA.2.2)
  let rowB := stB.1
  let tl_sum := stB.2.1
  let output_row_start := r * ostr
  let vals0 := fun i => divV (expV e (subV (rowB i) tl_max)) tl_sum
  let out1 := storeTile out0 output_row_start 0 N vals0 BS
  let tr1 := stB.2.2 ++ [Event.store 0]
  let stC :=
    (pyRange (BS : ℤ) (N_BLOCKS * (BS : ℤ)) (BS : ℤ)).foldl
      (fun (s : Mem × List Event) cs =>
        let row := loadTile x row_start cs N
        let sm := fun i => divV (expV e (subV (row i) tl_max)) tl_sum
        (storeTile s.1 output_row_start cs N sm BS, s.2 ++ [Event.load cs, Event.store cs]))
      (out1, tr1)
  { out := stC.1
    trace := stC.2
    rowMax := tl_max
    denom := tl_sum
    vals := vals0 }

/-- The `num_warps` heuristic of the dispatcher `softmax`, as the source's
chain of reassignments over `BLOCK_SIZE`. -/
def num_warps_of (B : ℕ) : ℕ :=
  let nw := 4
  let nw := if 2048 ≤ B then 8 else nw
  let nw := if 4096 ≤ B then 16 else nw
  let nw := if 8096 ≤ B then 32 else nw
  nw

/-- Modelled from the spec: `triton.next_power_of_2`, the one collaborator the
dispatcher uses whose code is not under `src/` — "the smallest power of two
≥ N" (§4.1).  `2 ^ Nat.clog 2 n` is exactly that number. -/
def next_power_of_2 (n : ℕ) : ℕ := 2 ^ Nat.clog 2 n

/-- The Row Dispatcher's configuration choice (the pure part of `softmax`):
tile size, `num_warps` hint, and whether the big-row kernel is selected
(`True and BLOCK_SIZE >= 64*1024`). -/
structure DispatchResult where
  BLOCK_SIZE : ℕ
  num_warps : ℕ
  usesBigRow : Bool
deriving DecidableEq

/-- The Row Dispatcher `softmax`, restricted to its pure configuration
computation over `n_cols`. -/
def softmax_dispatch (n_cols : ℕ) : DispatchResult :=
  let BLOCK_SIZE := next_power_of_2 n_cols
  let nw := num_warps_of BLOCK_SIZE
  let big : Bool := decide (64 * 1024 ≤ BLOCK_SIZE)
  { BLOCK_SIZE := BLOCK_SIZE, num_warps := nw, usesBigRow := big }

/-- The reference row maximum: maximum of the `k` true elements
`x base, …, x (base + k - 1)` (meaningful for `k ≥ 1`). -/
def segMax (x : ℤ → ℚ) (base : ℤ) (k : ℕ) : ℚ :=
  (List.range k).foldl (fun a (i : ℕ) => max a (x (base + (i : ℤ)))) (x base)

/-- The reference row maximum over the row starting at `rs` with `N` true
elements. -/
def rowMaxQ (x : ℤ → ℚ) (rs : ℤ) (N : ℕ) : ℚ := segMax x rs N

/-- Sum of `e (x (base + i) - M)` over `i < k` (a contiguous segment). -/
def segSumQ (e : ℚ → ℚ) (x : ℤ → ℚ) (base : ℤ) (M : ℚ) (k : ℕ) : ℚ :=
  (List.range k).foldl (fun a (i : ℕ) => a + e (x (base + (i : ℤ)) - M)) 0

/-- The reference denominator: `Σ_{c < N} e (x (rs + c) - rowmax)`. -/
def rowSumQ (e : ℚ → ℚ) (x : ℤ → ℚ) (rs : ℤ) (N : ℕ) : ℚ :=
  segSumQ e x rs (rowMaxQ x rs N) N

/-! ### Algebra of the extended values -/

theorem maxV_neginf_left (a : V) : maxV V.neginf a = a := by
  cases a <;> rfl

theorem maxV_neginf_right (a : V) : maxV a V.neginf = a := by
  cases a <;> rfl

theorem foldl_maxV_fin (g : ℕ → ℚ) :
    ∀ (l : List ℕ) (q : ℚ),
      l.foldl (fun a i => maxV a (V.fin (g i))) (V.fin q)
        = V.fin (l.foldl (fun a i => max a (g i)) q) := by
  intro l
  induction l with
  | nil => intro q; rfl
  | cons h t ih => intro q; simpa [maxV] using ih (max q (g h))

theorem foldl_maxV_neginf_of (g : ℕ → V) :
    ∀ (l : List ℕ), (∀ i ∈ l, g i = V.neginf) → ∀ (a : V),
      l.foldl (fun acc i => maxV acc (g i)) a = a := by
  intro l
  induction l with
  | nil => intro _ a; rfl
  | cons h t ih =>
    intro hmem a
    have hh : g h = V.neginf := hmem h (List.mem_cons_self h t)
    have ht : ∀ i ∈ t, g i = V.neginf := fun i hi => hmem i (List.mem_cons_of_mem h hi)
    simp only [List.foldl_cons, hh, maxV_neginf_right]
    exact ih ht a

theorem foldl_addV_fin (g : ℕ → ℚ) :
    ∀ (l : List ℕ) (q : ℚ),
      l.foldl (fun a i => addV a (V.fin (g i))) (V.fin q)
        = V.fin (l.foldl (fun a i => a + g i) q) := by
  intro l
  induction l with
  | nil => intro q; rfl
  | cons h t ih => intro q; simpa [addV] using ih (q + g h)

/-! ### Fold algebra over the rationals -/

theorem foldl_add_shift (g : ℕ → ℚ) :
    ∀ (l : List ℕ) (q q' : ℚ),
      l.foldl (fun a i => a + g i) (q + q') = q + l.foldl (fun a i => a + g i) q' := by
  intro l
  induction l with
  | nil => intro q q'; rfl
  | cons h t ih =>
    intro q q'
    simp only [List.foldl_cons]
    rw [add_assoc, ih]

theorem foldl_max_shift (g : ℕ → ℚ) :
    ∀ (l : List ℕ) (q q' : ℚ),
      l.foldl (fun a i => max a (g i)) (max q q') = max q (l.foldl (fun a i => max a (g i)) q') := by
  intro l
  induction l with
  | nil => intro q q'; rfl
  | cons h t ih =>
    intro q q'
    simp only [List.foldl_cons]
    rw [max_assoc, ih]

theorem foldl_const_acc (l : List ℕ) (s : ℚ) :
    l.foldl (fun a (_ : ℕ) => a + 0) s = s := by
  induction l with
  | nil => rfl
  | cons h t ih => rw [List.foldl_cons, add_zero]; exact ih

/-! ### Evaluating the Python ranges used by the big-row kernel -/

theorem pyRange_two (b : ℤ) (hb : 1 ≤ b) : pyRange 0 (2 * b) b = [0, b] := by
  have hb0 : b ≠ 0 := by omega
  have hlen : pyRangeLen 0 (2 * b) b = 2 := by
    unfold pyRangeLen
    rw [if_pos (by omega)]
    have h1 : 2 * b - 0 + b - 1 = (b - 1) + 2 * b := by ring
    rw [h1, Int.add_mul_ediv_right _ _ hb0, Int.ediv_eq_zero_of_lt (by omega) (by omega)]
    rfl
  unfold pyRange
  rw [hlen]
  have h2 : List.range 2 = [0, 1] := rfl
  rw [h2]
  simp only [List.map_cons, List.map_nil]
  norm_num

theorem pyRange_revloop (b : ℤ) (hb : 1 ≤ b) : pyRange 0 (-1) (-b) = [0] := by
  have hb0 : b ≠ 0 := by omega
  have hlen : pyRangeLen 0 (-1) (-b) = 1 := by
    unfold pyRangeLen
    rw [if_neg (by omega), if_pos (by omega)]
    have h1 : (0 : ℤ) - -1 - -b - 1 = b := by ring
    rw [h1]
    simp [Int.ediv_self hb0]
  unfold pyRange
  rw [hlen]
  have h2 : List.range 1 = [0] := rfl
  rw [h2]
  simp only [List.map_cons, List.map_nil]
  norm_num

theorem pyRange_tail (b : ℤ) (hb : 1 ≤ b) : pyRange b (2 * b) b = [b] := by
  have hb0 : b ≠ 0 := by omega
  have hlen : pyRangeLen b (2 * b) b = 1 := by
    unfold pyRangeLen
    rw [if_pos (by omega)]
    have h1 : 2 * b - b + b - 1 = (b - 1) + 1 * b := by ring
    rw [h1, Int.add_mul_ediv_right _ _ hb0, Int.ediv_eq_zero_of_lt (by omega) (by omega)]
    rfl
  unfold pyRange
  rw [hlen]
  have h2 : List.range 1 = [0] := rfl
  rw [h2]
  simp only [List.map_cons, List.map_nil]
  norm_num

/-! ### Characterizing the reductions over a masked tile -/

theorem loadTile_in (x : ℤ → ℚ) (rb cs : ℤ) (N : ℕ) (i : ℕ)
    (h : cs + (i : ℤ) < (N : ℤ)) :
    loadTile x rb cs N i = V.fin (x (rb + cs + (i : ℤ))) := if_pos h

theorem loadTile_out (x : ℤ → ℚ) (rb cs : ℤ) (N : ℕ) (i : ℕ)
    (h : ¬cs + (i : ℤ) < (N : ℤ)) :
    loadTile x rb cs N i = V.neginf := if_neg h

theorem segMax_foldl_neginf (x : ℤ → ℚ) (base : ℤ) (k : ℕ) (hk : 1 ≤ k) :
    (List.range k).foldl (fun a (i : ℕ) => maxV a (V.fin (x (base + (i : ℤ))))) V.neginf
      = V.fin (segMax x base k) := by
  obtain ⟨k', rfl⟩ : ∃ k', k = k' + 1 := ⟨k - 1, by omega⟩
  unfold segMax
  rw [List.range_succ_eq_map]
  simp only [List.foldl_cons, List.foldl_map, maxV_neginf_left]
  rw [foldl_maxV_fin]
  simp only [Nat.cast_zero, add_zero, max_self]

/-- `tl.max` over a masked tile: with `K := min BS (N - cs)` true elements in
range, the reduction returns the maximum of those `K` elements, and `-inf`
when the tile is entirely masked.  The masked positions never become the
maximum. -/
theorem reduceMax_loadTile (x : ℤ → ℚ) (rb cs : ℤ) (N BS : ℕ) :
    reduceMax (loadTile x rb cs N) BS =
      if 1 ≤ min BS ((N : ℤ) - cs).toNat
      then V.fin (segMax x (rb + cs) (min BS ((N : ℤ) - cs).toNat))
      else V.neginf := by
  set K := min BS ((N : ℤ) - cs).toNat with hK
  have hKBS : K ≤ BS := min_le_left _ _
  obtain ⟨D, hD⟩ : ∃ D, BS = K + D := ⟨BS - K, by omega⟩
  have hmask1 : ∀ i : ℕ, i < K → cs + (i : ℤ) < (N : ℤ) := by intro i hi; omega
  have hmask2 : ∀ i : ℕ, i < D → ¬cs + ((K + i : ℕ) : ℤ) < (N : ℤ) := by
    intro i hi; omega
  unfold reduceMax
  rw [hD, List.range_add, List.foldl_append, List.foldl_map]
  have hpart2 :
      ∀ a : V,
        (List.range D).foldl (fun a i => maxV a (loadTile x rb cs N (K + i))) a = a := by
    intro a
    refine foldl_maxV_neginf_of (fun i => loadTile x rb cs N (K + i)) (List.range D) ?_ a
    intro i hi
    exact loadTile_out x rb cs N (K + i) (hmask2 i (List.mem_range.mp hi))
  rw [hpart2]
  by_cases hK1 : 1 ≤ K
  · rw [if_pos hK1]
    have hext :
        (List.range K).foldl (fun a i => maxV a (loadTile x rb cs N i)) V.neginf
          = (List.range K).foldl (fun a (i : ℕ) => maxV a (V.fin (x (rb + cs + (i : ℤ))))) V.neginf := by
      refine List.foldl_ext _ _ _ ?_
      intro a i hi
      rw [loadTile_in x rb cs N i (hmask1 i (List.mem_range.mp hi))]
    rw [hext, segMax_foldl_neginf x (rb + cs) K hK1]
  · rw [if_neg hK1]
    have hK0 : K = 0 := by omega
    rw [hK0]
    rfl

/-- `tl.sum (tl.exp (row - max))` over a masked tile, as a rational sum with
the masked positions contributing `exp (-inf) = 0`. -/
theorem reduceSum_exp_loadTile (e : ℚ → ℚ) (x : ℤ → ℚ) (rb cs : ℤ) (N BS : ℕ) (M : ℚ) :
    reduceSum (fun i => expV e (subV (loadTile x rb cs N i) (V.fin M))) BS
      = V.fin ((List.range BS).foldl
          (fun a (i : ℕ) =>
            a + (if cs + (i : ℤ) < (N : ℤ) then e (x (rb + cs + (i : ℤ)) - M) else 0)) 0) := by
  unfold reduceSum
  have hext :
      (List.range BS).foldl
          (fun a i => addV a (expV e (subV (loadTile x rb cs N i) (V.fin M)))) (V.fin 0)
        = (List.range BS).foldl
          (fun a (i : ℕ) =>
            addV a (V.fin (if cs + (i : ℤ) < (N : ℤ) then e (x (rb + cs + (i : ℤ)) - M) else 0)))
          (V.fin 0) := by
    refine List.foldl_ext _ _ _ ?_
    intro a i _
    by_cases h : cs + (i : ℤ) < (N : ℤ)
    · rw [loadTile_in x rb cs N i h, if_pos h]; rfl
    · rw [loadTile_out x rb cs N i h, if_neg h]; rfl
  rw [hext, foldl_addV_fin]

/-- Collapsing the masked-sum over a tile to the segment of true elements. -/
theorem iteSum_eq_segSum (e : ℚ → ℚ) (x : ℤ → ℚ) (rb cs : ℤ) (N BS : ℕ) (M : ℚ) :
    (List.range BS).foldl
        (fun a (i : ℕ) =>
          a + (if cs + (i : ℤ) < (N : ℤ) then e (x (rb + cs + (i : ℤ)) - M) else 0)) 0
      = segSumQ e x (rb + cs) M (min BS ((N : ℤ) - cs).toNat) := by
  set K := min BS ((N : ℤ) - cs).toNat with hK
  have hKBS : K ≤ BS := min_le_left _ _
  obtain ⟨D, hD⟩ : ∃ D, BS = K + D := ⟨BS - K, by omega⟩
  rw [hD, List.range_add, List.foldl_append, List.foldl_map]
  have hpart1 :
      (List.range K).foldl
          (fun a (i : ℕ) =>
            a + (if cs + (i : ℤ) < (N : ℤ) then e (x (rb + cs + (i : ℤ)) - M) else 0)) 0
        = segSumQ e x (rb + cs) M K := by
    unfold segSumQ
    refine List.foldl_ext _ _ _ ?_
    intro a i hi
    rw [if_pos (by have := List.mem_range.mp hi; omega : cs + (i : ℤ) < (N : ℤ))]
  rw [hpart1]
  have hpart2 :
      (List.range D).foldl
          (fun a (i : ℕ) =>
            a + (if cs + ((K + i : ℕ) : ℤ) < (N : ℤ) then e (x (rb + cs + ((K + i : ℕ) : ℤ)) - M) else 0))
          (segSumQ e x (rb + cs) M K)
        = segSumQ e x (rb + cs) M K := by
    have hext :
        (List.range D).foldl
            (fun a i =>
              a + (if cs + ((K + i : ℕ) : ℤ) < (N : ℤ) then e (x (rb + cs + ((K + i : ℕ) : ℤ)) - M) else 0))
            (segSumQ e x (rb + cs) M K)
          = (List.range D).foldl (fun a (_ : ℕ) => a + 0) (segSumQ e x (rb + cs) M K) := by
      refine List.foldl_ext _ _ _ ?_
      intro a i hi
      rw [if_neg (by have := List.mem_range.mp hi; omega : ¬cs + ((K + i : ℕ) : ℤ) < (N : ℤ))]
    rw [hext, foldl_const_acc]
  exact hpart2

/-! ### Segment algebra: splitting a row into two tiles -/

theorem segMax_split (x : ℤ → ℚ) (base : ℤ) (k1 k2 : ℕ) (h2 : 1 ≤ k2) :
    segMax x base (k1 + k2) = max (segMax x base k1) (segMax x (base + (k1 : ℤ)) k2) := by
  unfold segMax
  rw [List.range_add, List.foldl_append, List.foldl_map]
  obtain ⟨k2', rfl⟩ : ∃ k2', k2 = k2' + 1 := ⟨k2 - 1, by omega⟩
  rw [List.range_succ_eq_map]
  simp only [List.foldl_cons, List.foldl_map]
  rw [foldl_max_shift]
  have hseed : max (x (base + (k1 : ℤ))) (x (base + (k1 : ℤ) + ((0 : ℕ) : ℤ)))
      = x (base + (k1 : ℤ)) := by
    simp only [Nat.cast_zero, add_zero, max_self]
  have hfun :
      (List.range k2').foldl
          (fun a (i : ℕ) => max a (x (base + ((k1 + Nat.succ i : ℕ) : ℤ))))
          (x (base + ((k1 + 0 : ℕ) : ℤ)))
        = (List.range k2').foldl
          (fun a (i : ℕ) => max a (x (base + (k1 : ℤ) + ((Nat.succ i : ℕ) : ℤ))))
          (x (base + (k1 : ℤ) + ((0 : ℕ) : ℤ))) := by
    have hb : (base + ((k1 + 0 : ℕ) : ℤ)) = base + (k1 : ℤ) + ((0 : ℕ) : ℤ) := by push_cast; ring
    rw [hb]
    refine List.foldl_ext _ _ _ ?_
    intro a i _
    have : (base + ((k1 + Nat.succ i : ℕ) : ℤ)) = base + (k1 : ℤ) + ((Nat.succ i : ℕ) : ℤ) := by
      push_cast; ring
    rw [this]
  rw [hfun, hseed]
  simp only [Nat.cast_zero, add_zero]

theorem segSumQ_split (e : ℚ → ℚ) (x : ℤ → ℚ) (base : ℤ) (M : ℚ) (k1 k2 : ℕ) :
    segSumQ e x base M (k1 + k2) = segSumQ e x base M k1 + segSumQ e x (base + (k1 : ℤ)) M k2 := by
  unfold segSumQ
  rw [List.range_add, List.foldl_append, List.foldl_map]
  have hfun :
      (List.range k2).foldl
          (fun a (i : ℕ) => a + e (x (base + ((k1 + i : ℕ) : ℤ)) - M))
          ((List.range k1).foldl (fun a (i : ℕ) => a + e (x (base + (i : ℤ)) - M)) 0)
        = (List.range k2).foldl
          (fun a (i : ℕ) => a + e (x (base + (k1 : ℤ) + (i : ℤ)) - M))
          ((List.range k1).foldl (fun a (i : ℕ) => a + e (x (base + (i : ℤ)) - M)) 0) := by
    refine List.foldl_ext _ _ _ ?_
    intro a i _
    have : (base + ((k1 + i : ℕ) : ℤ)) = base + (k1 : ℤ) + (i : ℤ) := by push_cast; ring
    rw [this]
  rw [hfun]
  have hshift := foldl_add_shift (fun i : ℕ => e (x (base + (k1 : ℤ) + (i : ℤ)) - M))
    (List.range k2)
    ((List.range k1).foldl (fun a (i : ℕ) => a + e (x (base + (i : ℤ)) - M)) 0) 0
  have hz : ((List.range k1).foldl (fun a (i : ℕ) => a + e (x (base + (i : ℤ)) - M)) 0) + 0
      = (List.range k1).foldl (fun a (i : ℕ) => a + e (x (base + (i : ℤ)) - M)) 0 := add_zero _
  rw [hz] at hshift
  rw [hshift]

/-! ### Constant rows and positivity of the denominator -/

theorem segMax_const (x : ℤ → ℚ) (base : ℤ) (q0 : ℚ) (k : ℕ)
    (hconst : ∀ i : ℕ, (i : ℤ) < (k : ℤ) → x (base + (i : ℤ)) = q0) (hk : 1 ≤ k) :
    segMax x base k = q0 := by
  unfold segMax
  have hbase : x base = q0 := by
    have := hconst 0 (by omega)
    simpa using this
  have hext :
      (List.range k).foldl (fun a (i : ℕ) => max a (x (base + (i : ℤ)))) (x base)
        = (List.range k).foldl (fun a (_ : ℕ) => max a q0) (x base) := by
    refine List.foldl_ext _ _ _ ?_
    intro a i hi
    rw [hconst i (by have := List.mem_range.mp hi; omega)]
  rw [hext, hbase]
  have : ∀ l : List ℕ, l.foldl (fun a (_ : ℕ) => max a q0) q0 = q0 := by
    intro l
    induction l with
    | nil => rfl
    | cons h t ih => simp only [List.foldl_cons, max_self]; exact ih
  exact this _

theorem segSumQ_const (e : ℚ → ℚ) (x : ℤ → ℚ) (base : ℤ) (M : ℚ) (k : ℕ)
    (hconst : ∀ i : ℕ, (i : ℤ) < (k : ℤ) → e (x (base + (i : ℤ)) - M) = 1) :
    segSumQ e x base M k = (k : ℚ) := by
  unfold segSumQ
  have hext :
      (List.range k).foldl (fun a (i : ℕ) => a + e (x (base + (i : ℤ)) - M)) 0
        = (List.range k).foldl (fun a (_ : ℕ) => a + 1) 0 := by
    refine List.foldl_ext _ _ _ ?_
    intro a i hi
    rw [hconst i (by have := List.mem_range.mp hi; omega)]
  rw [hext]
  have haux : ∀ (n : ℕ) (s : ℚ), (List.range n).foldl (fun a (_ : ℕ) => a + 1) s = s + n := by
    intro n
    induction n with
    | zero => intro s; simp
    | succ n ih =>
      intro s
      rw [List.range_succ, List.foldl_append]
      simp only [List.foldl_cons, List.foldl_nil]
      rw [ih s]
      push_cast
      ring
  simpa using haux k 0

theorem segSumQ_pos (e : ℚ → ℚ) (x : ℤ → ℚ) (base : ℤ) (M : ℚ) (k : ℕ)
    (hpos : ∀ q : ℚ, 0 < e q) (hk : 1 ≤ k) :
    0 < segSumQ e x base M k := by
  unfold segSumQ
  have haux : ∀ (l : List ℕ) (s : ℚ), 0 ≤ s →
      s ≤ l.foldl (fun a (i : ℕ) => a + e (x (base + (i : ℤ)) - M)) s := by
    intro l
    induction l with
    | nil => intro s _; exact le_refl s
    | cons h t ih =>
      intro s hs
      simp only [List.foldl_cons]
      calc s ≤ s + e (x (base + (h : ℤ)) - M) := by
                have := hpos (x (base + (h : ℤ)) - M); linarith
        _ ≤ _ := ih _ (by have := hpos (x (base + (h : ℤ)) - M); linarith)
  obtain ⟨k', rfl⟩ : ∃ k', k = k' + 1 := ⟨k - 1, by omega⟩
  rw [List.range_succ_eq_map]
  simp only [List.foldl_cons, List.foldl_map]
  have h0 : (0 : ℚ) + e (x (base + ((0 : ℕ) : ℤ)) - M) > 0 := by
    have := hpos (x (base + ((0 : ℕ) : ℤ)) - M); linarith
  have hmono := haux ((List.range k').map Nat.succ) (0 + e (x (base + ((0 : ℕ) : ℤ)) - M))
    (by linarith)
  rw [List.foldl_map] at hmono
  linarith

/-! ### The masked store: written and untouched locations -/

theorem storeTile_succ (m : Mem) (rb cs : ℤ) (N : ℕ) (f : ℕ → V) (BS : ℕ) :
    storeTile m rb cs N f (BS + 1)
      = (if cs + ((BS : ℕ) : ℤ) < (N : ℤ)
         then update (storeTile m rb cs N f BS) (rb + cs + ((BS : ℕ) : ℤ)) (f BS)
         else storeTile m rb cs N f BS) := by
  unfold storeTile
  rw [List.range_succ, List.foldl_append]
  simp only [List.foldl_cons, List.foldl_nil]

theorem storeTile_hit (m : Mem) (rb cs : ℤ) (N : ℕ) (f : ℕ → V) :
    ∀ (BS : ℕ) (i : ℕ), i < BS → cs + (i : ℤ) < (N : ℤ) →
      storeTile m rb cs N f BS (rb + cs + (i : ℤ)) = f i := by
  intro BS
  induction BS with
  | zero => intro i hi _; omega
  | succ k ih =>
    intro i hi hmask
    rw [storeTile_succ]
    by_cases hik : i = k
    · subst hik
      rw [if_pos hmask]
      unfold update
      rw [if_pos rfl]
    · have hik' : i < k := by omega
      by_cases hmk : cs + ((k : ℕ) : ℤ) < (N : ℤ)
      · rw [if_pos hmk]
        unfold update
        rw [if_neg (by omega : ¬rb + cs + (i : ℤ) = rb + cs + ((k : ℕ) : ℤ))]
        exact ih i hik' hmask
      · rw [if_neg hmk]
        exact ih i hik' hmask

theorem storeTile_frame (m : Mem) (rb cs : ℤ) (N : ℕ) (f : ℕ → V) (a : ℤ) :
    ∀ (BS : ℕ), (∀ i : ℕ, i < BS → cs + (i : ℤ) < (N : ℤ) → a ≠ rb + cs + (i : ℤ)) →
      storeTile m rb cs N f BS a = m a := by
  intro BS
  induction BS with
  | zero => intro _; rfl
  | succ k ih =>
    intro ha
    rw [storeTile_succ]
    by_cases hmk : cs + ((k : ℕ) : ℤ) < (N : ℤ)
    · rw [if_pos hmk]
      unfold update
      rw [if_neg (ha k (by omega) hmk)]
      exact ih (fun i hi hm => ha i (by omega) hm)
    · rw [if_neg hmk]
      exact ih (fun i hi hm => ha i (by omega) hm)

/-! ### Characterization of the Single-Tile Path -/

theorem single_rowMax (out0 : Mem) (x : ℤ → ℚ) (istr ostr : ℤ) (N : ℕ) (r : ℤ)
    (e : ℚ → ℚ) (B : ℕ) (hN : 1 ≤ N) (hNB : N ≤ B) :
    (softmax_kernel out0 x istr ostr N r e B).rowMax = V.fin (rowMaxQ x (r * istr) N) := by
  show reduceMax (loadTile x (r * istr) 0 N) B = _
  rw [reduceMax_loadTile]
  have hmin : min B ((N : ℤ) - 0).toNat = N := by omega
  rw [hmin, if_pos hN]
  unfold rowMaxQ
  rw [add_zero]

theorem single_denom (out0 : Mem) (x : ℤ → ℚ) (istr ostr : ℤ) (N : ℕ) (r : ℤ)
    (e : ℚ → ℚ) (B : ℕ) (hN : 1 ≤ N) (hNB : N ≤ B) :
    (softmax_kernel out0 x istr ostr N r e B).denom = V.fin (rowSumQ e x (r * istr) N) := by
  have hmax := single_rowMax out0 x istr ostr N r e B hN hNB
  show reduceSum
      (fun c => expV e (subV (loadTile x (r * istr) 0 N c)
        (reduceMax (loadTile x (r * istr) 0 N) B))) B = _
  have hmax' : reduceMax (loadTile x (r * istr) 0 N) B = V.fin (rowMaxQ x (r * istr) N) :=
    hmax
  simp only [hmax']
  rw [reduceSum_exp_loadTile, iteSum_eq_segSum]
  have hmin : min B ((N : ℤ) - 0).toNat = N := by omega
  rw [hmin]
  unfold rowSumQ
  rw [add_zero]

theorem single_out_val (out0 : Mem) (x : ℤ → ℚ) (istr ostr : ℤ) (N : ℕ) (r : ℤ)
    (e : ℚ → ℚ) (B : ℕ) (hN : 1 ≤ N) (hNB : N ≤ B) (c : ℕ) (hc : c < N) :
    (softmax_kernel out0 x istr ostr N r e B).out (r * ostr + (c : ℤ))
      = divV (V.fin (e (x (r * istr + (c : ℤ)) - rowMaxQ x (r * istr) N)))
          (V.fin (rowSumQ e x (r * istr) N)) := by
  have hmax' : reduceMax (loadTile x (r * istr) 0 N) B = V.fin (rowMaxQ x (r * istr) N) :=
    single_rowMax out0 x istr ostr N r e B hN hNB
  have hden' : reduceSum
      (fun c => expV e (subV (loadTile x (r * istr) 0 N c)
        (reduceMax (loadTile x (r * istr) 0 N) B))) B = V.fin (rowSumQ e x (r * istr) N) :=
    single_denom out0 x istr ostr N r e B hN hNB
  show storeTile out0 (r * ostr) 0 N
      (fun c => divV (expV e (subV (loadTile x (r * istr) 0 N c)
          (reduceMax (loadTile x (r * istr) 0 N) B)))
        (reduceSum
          (fun c => expV e (subV (loadTile x (r * istr) 0 N c)
            (reduceMax (loadTile x (r * istr) 0 N) B))) B))
      B (r * ostr + (c : ℤ)) = _
  have haddr : r * ostr + (c : ℤ) = r * ostr + 0 + (c : ℤ) := by ring
  rw [haddr, storeTile_hit out0 (r * ostr) 0 N _ B c (by omega) (by omega)]
  rw [hden', hmax', loadTile_in x (r * istr) 0 N c (by omega)]
  have haddr2 : r * istr + 0 + (c : ℤ) = r * istr + (c : ℤ) := by ring
  rw [haddr2]
  rfl

theorem single_frame (out0 : Mem) (x : ℤ → ℚ) (istr ostr : ℤ) (N : ℕ) (r : ℤ)
    (e : ℚ → ℚ) (B : ℕ) (a : ℤ)
    (ha : ∀ c : ℕ, c < N → a ≠ r * ostr + (c : ℤ)) :
    (softmax_kernel out0 x istr ostr N r e B).out a = out0 a := by
  show storeTile out0 (r * ostr) 0 N _ B a = out0 a
  refine storeTile_frame out0 (r * ostr) 0 N _ a B ?_
  intro i hi hm heq
  exact ha i (by omega) (by omega)

theorem single_trace (out0 : Mem) (x : ℤ → ℚ) (istr ostr : ℤ) (N : ℕ) (r : ℤ)
    (e : ℚ → ℚ) (B : ℕ) :
    (softmax_kernel out0 x istr ostr N r e B).trace = [Event.load 0, Event.store 0] := rfl

/-! ### Unfolding the Multi-Tile Path to its two-tile form -/

theorem bigrow_rowMax_eq (out0 : Mem) (x : ℤ → ℚ) (istr ostr : ℤ) (N : ℕ) (r : ℤ)
    (e : ℚ → ℚ) (Bmeta : ℕ) (hBS : 1 ≤ Bmeta / 2) :
    (softmax_kernel_big_row out0 x istr ostr N r e Bmeta).rowMax
      = maxV (maxV V.neginf (reduceMax (loadTile x (r * istr) 0 N) (Bmeta / 2)))
          (reduceMax (loadTile x (r * istr) ((Bmeta / 2 : ℕ) : ℤ) N) (Bmeta / 2)) := by
  have hb : (1 : ℤ) ≤ ((Bmeta / 2 : ℕ) : ℤ) := by exact_mod_cast hBS
  simp only [softmax_kernel_big_row]
  rw [pyRange_two _ hb]
  rfl

theorem bigrow_denom_eq (out0 : Mem) (x : ℤ → ℚ) (istr ostr : ℤ) (N : ℕ) (r : ℤ)
    (e : ℚ → ℚ) (Bmeta : ℕ) (hBS : 1 ≤ Bmeta / 2) :
    (softmax_kernel_big_row out0 x istr ostr N r e Bmeta).denom
      = addV
          (reduceSum (fun i => expV e (subV (loadTile x (r * istr) ((Bmeta / 2 : ℕ) : ℤ) N i)
            ((softmax_kernel_big_row out0 x istr ostr N r e Bmeta).rowMax))) (Bmeta / 2))
          (reduceSum (fun i => expV e (subV (loadTile x (r * istr) 0 N i)
            ((softmax_kernel_big_row out0 x istr ostr N r e Bmeta).rowMax))) (Bmeta / 2)) := by
  have hb : (1 : ℤ) ≤ ((Bmeta / 2 : ℕ) : ℤ) := by exact_mod_cast hBS
  have hz : ((2 : ℤ) - 2) * ((Bmeta / 2 : ℕ) : ℤ) = 0 := by ring
  simp only [softmax_kernel_big_row]
  rw [pyRange_two _ hb, hz, pyRange_revloop _ hb]
  rfl

theorem bigrow_out_eq (out0 : Mem) (x : ℤ → ℚ) (istr ostr : ℤ) (N : ℕ) (r : ℤ)
    (e : ℚ → ℚ) (Bmeta : ℕ) (hBS : 1 ≤ Bmeta / 2) :
    (softmax_kernel_big_row out0 x istr ostr N r e Bmeta).out
      = storeTile
          (storeTile out0 (r * ostr) 0 N
            (fun i => divV
              (expV e (subV (loadTile x (r * istr) 0 N i)
                ((softmax_kernel_big_row out0 x istr ostr N r e Bmeta).rowMax)))
              ((softmax_kernel_big_row out0 x istr ostr N r e Bmeta).denom))
            (Bmeta / 2))
          (r * ostr) ((Bmeta / 2 : ℕ) : ℤ) N
          (fun i => divV
            (expV e (subV (loadTile x (r * istr) ((Bmeta / 2 : ℕ) : ℤ) N i)
              ((softmax_kernel_big_row out0 x istr ostr N r e Bmeta).rowMax)))
            ((softmax_kernel_big_row out0 x istr ostr N r e Bmeta).denom))
          (Bmeta / 2) := by
  have hb : (1 : ℤ) ≤ ((Bmeta / 2 : ℕ) : ℤ) := by exact_mod_cast hBS
  have hz : ((2 : ℤ) - 2) * ((Bmeta / 2 : ℕ) : ℤ) = 0 := by ring
  simp only [softmax_kernel_big_row]
  rw [pyRange_two _ hb, hz, pyRange_revloop _ hb, pyRange_tail _ hb]
  rfl

theorem bigrow_trace_eq (out0 : Mem) (x : ℤ → ℚ) (istr ostr : ℤ) (N : ℕ) (r : ℤ)
    (e : ℚ → ℚ) (Bmeta : ℕ) (hBS : 1 ≤ Bmeta / 2) :
    (softmax_kernel_big_row out0 x istr ostr N r e Bmeta).trace
      = [Event.load 0, Event.load ((Bmeta / 2 : ℕ) : ℤ), Event.load 0, Event.store 0,
          Event.load ((Bmeta / 2 : ℕ) : ℤ), Event.store ((Bmeta / 2 : ℕ) : ℤ)] := by
  have hb : (1 : ℤ) ≤ ((Bmeta / 2 : ℕ) : ℤ) := by exact_mod_cast hBS
  have hz : ((2 : ℤ) - 2) * ((Bmeta / 2 : ℕ) : ℤ) = 0 := by ring
  simp only [softmax_kernel_big_row]
  rw [pyRange_two _ hb, hz, pyRange_revloop _ hb, pyRange_tail _ hb]
  rfl

/-! ### Small computation rules on extended values -/

theorem maxV_fin_fin (a b : ℚ) : maxV (V.fin a) (V.fin b) = V.fin (max a b) := rfl

theorem addV_fin_fin (a b : ℚ) : addV (V.fin a) (V.fin b) = V.fin (a + b) := rfl

theorem subV_fin_fin (a b : ℚ) : subV (V.fin a) (V.fin b) = V.fin (a - b) := rfl

theorem expV_fin (e : ℚ → ℚ) (a : ℚ) : expV e (V.fin a) = V.fin (e a) := rfl

theorem divV_fin_fin (a b : ℚ) (hb : b ≠ 0) : divV (V.fin a) (V.fin b) = V.fin (a / b) := by
  simp only [divV]
  rw [if_neg hb]

theorem segSumQ_zero (e : ℚ → ℚ) (x : ℤ → ℚ) (base : ℤ) (M : ℚ) :
    segSumQ e x base M 0 = 0 := rfl

/-! ### Characterization of the Multi-Tile Path -/

theorem bigrow_rowMax (out0 : Mem) (x : ℤ → ℚ) (istr ostr : ℤ) (N : ℕ) (r : ℤ)
    (e : ℚ → ℚ) (Bmeta : ℕ) (hN : 1 ≤ N) (hBS : 1 ≤ Bmeta / 2) (hcov : N ≤ 2 * (Bmeta / 2)) :
    (softmax_kernel_big_row out0 x istr ostr N r e Bmeta).rowMax
      = V.fin (rowMaxQ x (r * istr) N) := by
  rw [bigrow_rowMax_eq out0 x istr ostr N r e Bmeta hBS]
  rw [reduceMax_loadTile, reduceMax_loadTile]
  by_cases hcase : N ≤ Bmeta / 2
  · have hK0 : min (Bmeta / 2) ((N : ℤ) - 0).toNat = N := by omega
    have hK1 : ¬1 ≤ min (Bmeta / 2) ((N : ℤ) - ((Bmeta / 2 : ℕ) : ℤ)).toNat := by omega
    rw [hK0, if_pos hN, if_neg hK1, maxV_neginf_left, maxV_neginf_right]
    unfold rowMaxQ
    rw [add_zero]
  · have hK0 : min (Bmeta / 2) ((N : ℤ) - 0).toNat = Bmeta / 2 := by omega
    have hK1 : min (Bmeta / 2) ((N : ℤ) - ((Bmeta / 2 : ℕ) : ℤ)).toNat = N - Bmeta / 2 := by
      omega
    rw [hK0, hK1, if_pos (by omega : 1 ≤ Bmeta / 2), if_pos (by omega : 1 ≤ N - Bmeta / 2),
      maxV_neginf_left, maxV_fin_fin, add_zero]
    have hsplit := segMax_split x (r * istr) (Bmeta / 2) (N - Bmeta / 2) (by omega)
    have hNsum : Bmeta / 2 + (N - Bmeta / 2) = N := by omega
    rw [hNsum] at hsplit
    unfold rowMaxQ
    rw [hsplit]

theorem bigrow_denom (out0 : Mem) (x : ℤ → ℚ) (istr ostr : ℤ) (N : ℕ) (r : ℤ)
    (e : ℚ → ℚ) (Bmeta : ℕ) (hN : 1 ≤ N) (hBS : 1 ≤ Bmeta / 2) (hcov : N ≤ 2 * (Bmeta / 2)) :
    (softmax_kernel_big_row out0 x istr ostr N r e Bmeta).denom
      = V.fin (rowSumQ e x (r * istr) N) := by
  have hmax := bigrow_rowMax out0 x istr ostr N r e Bmeta hN hBS hcov
  rw [bigrow_denom_eq out0 x istr ostr N r e Bmeta hBS]
  simp only [hmax]
  rw [reduceSum_exp_loadTile, reduceSum_exp_loadTile, iteSum_eq_segSum, iteSum_eq_segSum,
    addV_fin_fin]
  unfold rowSumQ
  by_cases hcase : N ≤ Bmeta / 2
  · have hK0 : min (Bmeta / 2) ((N : ℤ) - 0).toNat = N := by omega
    have hK1 : min (Bmeta / 2) ((N : ℤ) - ((Bmeta / 2 : ℕ) : ℤ)).toNat = 0 := by omega
    rw [hK0, hK1, segSumQ_zero, zero_add, add_zero]
  · have hK0 : min (Bmeta / 2) ((N : ℤ) - 0).toNat = Bmeta / 2 := by omega
    have hK1 : min (Bmeta / 2) ((N : ℤ) - ((Bmeta / 2 : ℕ) : ℤ)).toNat = N - Bmeta / 2 := by
      omega
    rw [hK0, hK1, add_zero]
    have hsplit := segSumQ_split e x (r * istr) (rowMaxQ x (r * istr) N) (Bmeta / 2)
      (N - Bmeta / 2)
    have hNsum : Bmeta / 2 + (N - Bmeta / 2) = N := by omega
    rw [hNsum] at hsplit
    rw [hsplit, add_comm]

theorem bigrow_out_val (out0 : Mem) (x : ℤ → ℚ) (istr ostr : ℤ) (N : ℕ) (r : ℤ)
    (e : ℚ → ℚ) (Bmeta : ℕ) (hN : 1 ≤ N) (hBS : 1 ≤ Bmeta / 2) (hcov : N ≤ 2 * (Bmeta / 2))
    (c : ℕ) (hc : c < N) :
    (softmax_kernel_big_row out0 x istr ostr N r e Bmeta).out (r * ostr + (c : ℤ))
      = divV (V.fin (e (x (r * istr + (c : ℤ)) - rowMaxQ x (r * istr) N)))
          (V.fin (rowSumQ e x (r * istr) N)) := by
  have hmax := bigrow_rowMax out0 x istr ostr N r e Bmeta hN hBS hcov
  have hden := bigrow_denom out0 x istr ostr N r e Bmeta hN hBS hcov
  rw [bigrow_out_eq out0 x istr ostr N r e Bmeta hBS]
  simp only [hmax, hden]
  by_cases hcase : c < Bmeta / 2
  · have hframe : ∀ (m : Mem) (F : ℕ → V),
        storeTile m (r * ostr) ((Bmeta / 2 : ℕ) : ℤ) N F (Bmeta / 2) (r * ostr + (c : ℤ))
          = m (r * ostr + (c : ℤ)) := by
      intro m F
      refine storeTile_frame m (r * ostr) _ N F _ (Bmeta / 2) ?_
      intro i hi hm heq
      omega
    rw [hframe]
    have haddr : r * ostr + (c : ℤ) = r * ostr + 0 + (c : ℤ) := by ring
    rw [haddr, storeTile_hit out0 (r * ostr) 0 N _ (Bmeta / 2) c hcase (by omega)]
    rw [loadTile_in x (r * istr) 0 N c (by omega), subV_fin_fin, expV_fin]
    have haddr2 : r * istr + 0 + (c : ℤ) = r * istr + (c : ℤ) := by ring
    rw [haddr2]
  · have hi : c - Bmeta / 2 < Bmeta / 2 := by omega
    have haddr : r * ostr + (c : ℤ)
        = r * ostr + ((Bmeta / 2 : ℕ) : ℤ) + ((c - Bmeta / 2 : ℕ) : ℤ) := by omega
    rw [haddr, storeTile_hit _ (r * ostr) ((Bmeta / 2 : ℕ) : ℤ) N _ (Bmeta / 2)
      (c - Bmeta / 2) hi (by omega)]
    rw [loadTile_in x (r * istr) ((Bmeta / 2 : ℕ) : ℤ) N (c - Bmeta / 2) (by omega),
      subV_fin_fin, expV_fin]
    have haddr2 : r * istr + ((Bmeta / 2 : ℕ) : ℤ) + ((c - Bmeta / 2 : ℕ) : ℤ)
        = r * istr + (c : ℤ) := by omega
    rw [haddr2]

theorem bigrow_frame (out0 : Mem) (x : ℤ → ℚ) (istr ostr : ℤ) (N : ℕ) (r : ℤ)
    (e : ℚ → ℚ) (Bmeta : ℕ) (hBS : 1 ≤ Bmeta / 2) (a : ℤ)
    (ha : ∀ c : ℕ, c < N → a ≠ r * ostr + (c : ℤ)) :
    (softmax_kernel_big_row out0 x istr ostr N r e Bmeta).out a = out0 a := by
  rw [bigrow_out_eq out0 x istr ostr N r e Bmeta hBS]
  have h1 : ∀ (m : Mem) (F : ℕ → V),
      storeTile m (r * ostr) ((Bmeta / 2 : ℕ) : ℤ) N F (Bmeta / 2) a = m a := by
    intro m F
    refine storeTile_frame m (r * ostr) _ N F a (Bmeta / 2) ?_
    intro i hi hm heq
    exact ha (Bmeta / 2 + i) (by omega) (by omega)
  have h2 : ∀ (m : Mem) (F : ℕ → V),
      storeTile m (r * ostr) 0 N F (Bmeta / 2) a = m a := by
    intro m F
    refine storeTile_frame m (r * ostr) 0 N F a (Bmeta / 2) ?_
    intro i hi hm heq
    exact ha i (by omega) (by omega)
  rw [h1, h2]

/-! ### Positivity and congruence of the reference quantities -/

theorem rowSumQ_pos (e : ℚ → ℚ) (x : ℤ → ℚ) (rs : ℤ) (N : ℕ)
    (hpos : ∀ q : ℚ, 0 < e q) (hN : 1 ≤ N) : 0 < rowSumQ e x rs N :=
  segSumQ_pos e x rs (rowMaxQ x rs N) N hpos hN

theorem rowMaxQ_congr (x y : ℤ → ℚ) (rs : ℤ) (N : ℕ) (hN : 1 ≤ N)
    (h : ∀ c : ℕ, c < N → x (rs + (c : ℤ)) = y (rs + (c : ℤ))) :
    rowMaxQ x rs N = rowMaxQ y rs N := by
  unfold rowMaxQ segMax
  have hseed : x rs = y rs := by
    have h0 := h 0 (by omega)
    simpa using h0
  have hext :
      (List.range N).foldl (fun a (i : ℕ) => max a (x (rs + (i : ℤ)))) (x rs)
        = (List.range N).foldl (fun a (i : ℕ) => max a (y (rs + (i : ℤ)))) (x rs) := by
    refine List.foldl_ext _ _ _ ?_
    intro a i hi
    rw [h i (List.mem_range.mp hi)]
  rw [hext, hseed]

theorem rowSumQ_congr (e : ℚ → ℚ) (x y : ℤ → ℚ) (rs : ℤ) (N : ℕ) (hN : 1 ≤ N)
    (h : ∀ c : ℕ, c < N → x (rs + (c : ℤ)) = y (rs + (c : ℤ))) :
    rowSumQ e x rs N = rowSumQ e y rs N := by
  have hM := rowMaxQ_congr x y rs N hN h
  unfold rowSumQ segSumQ
  refine List.foldl_ext _ _ _ ?_
  intro a i hi
  rw [h i (List.mem_range.mp hi), hM]

/-! ### The modelled `next_power_of_2` -/

theorem le_next_power_of_2 (n : ℕ) : n ≤ next_power_of_2 n :=
  Nat.le_pow_clog (by norm_num) n

theorem next_power_of_2_le (n k : ℕ) (h : n ≤ 2 ^ k) : next_power_of_2 n ≤ 2 ^ k :=
  Nat.pow_le_pow_right (by norm_num) ((Nat.le_pow_iff_clog_le (by norm_num)).mp h)

theorem next_power_of_2_eq_of (n k : ℕ) (h1 : n ≤ 2 ^ (k + 1)) (h2 : 2 ^ k < n) :
    next_power_of_2 n = 2 ^ (k + 1) := by
  unfold next_power_of_2
  have hle : Nat.clog 2 n ≤ k + 1 := (Nat.le_pow_iff_clog_le (by norm_num)).mp h1
  have hgt : k < Nat.clog 2 n := (Nat.pow_lt_iff_lt_clog (by norm_num)).mp h2
  have heq : Nat.clog 2 n = k + 1 := by omega
  rw [heq]

theorem next_power_of_2_65537 : next_power_of_2 65537 = 131072 := by
  have h := next_power_of_2_eq_of 65537 16 (by norm_num) (by norm_num)
  simpa using h

theorem next_power_of_2_131073 : next_power_of_2 131073 = 262144 := by
  have h := next_power_of_2_eq_of 131073 17 (by norm_num) (by norm_num)
  simpa using h

theorem next_power_of_2_5 : next_power_of_2 5 = 8 := by
  have h := next_power_of_2_eq_of 5 2 (by norm_num) (by norm_num)
  simpa using h

/-! ## The claims -/

/-- Claim C1: for every input row and every in-range column `c < N`, the value
the kernel writes at column `c` equals
`e (x[c] - rowmax) / Σ_{c' < N} e (x[c'] - rowmax)`, where `rowmax` is the
maximum of the row's `N` true elements — on both the single-tile path (when
`N ≤ BLOCK_SIZE`) and the multi-tile path (when its two tiles of size
`BLOCK_SIZE/2` cover the row).  `e` is the abstract exponential, assumed
positive as the real `exp` is. -/
theorem claim_C1_fused_matches_reference (out0 : Mem) (x : ℤ → ℚ) (istr ostr : ℤ)
    (N B : ℕ) (r : ℤ) (e : ℚ → ℚ) (hpos : ∀ q : ℚ, 0 < e q) (hN : 1 ≤ N)
    (c : ℕ) (hc : c < N) :
    (N ≤ B →
      (softmax_kernel out0 x istr ostr N r e B).out (r * ostr + (c : ℤ))
        = V.fin (e (x (r * istr + (c : ℤ)) - rowMaxQ x (r * istr) N)
            / rowSumQ e x (r * istr) N))
    ∧ (1 ≤ B / 2 → N ≤ 2 * (B / 2) →
      (softmax_kernel_big_row out0 x istr ostr N r e B).out (r * ostr + (c : ℤ))
        = V.fin (e (x (r * istr + (c : ℤ)) - rowMaxQ x (r * istr) N)
            / rowSumQ e x (r * istr) N)) := by
  have hS : rowSumQ e x (r * istr) N ≠ 0 := ne_of_gt (rowSumQ_pos e x (r * istr) N hpos hN)
  constructor
  · intro hNB
    rw [single_out_val out0 x istr ostr N r e B hN hNB c hc, divV_fin_fin _ _ hS]
  · intro hBS hcov
    rw [bigrow_out_val out0 x istr ostr N r e B hN hBS hcov c hc, divV_fin_fin _ _ hS]

/-- Witness for C1 at a concrete configuration: constant row `x = 0`, `N = 1`,
`BLOCK_SIZE = 2`, `e = const 1`. -/
theorem claim_C1_witness :
    (∀ _q : ℚ, 0 < (1 : ℚ)) ∧ (1 : ℕ) ≤ 1 ∧ (0 : ℕ) < 1 ∧ (1 : ℕ) ≤ 2 ∧
    ((softmax_kernel (fun _ => V.fin 0) (fun _ => 0) 1 1 1 0 (fun _ => 1) 2).out
        (0 * 1 + ((0 : ℕ) : ℤ))
      = V.fin ((1 : ℚ) / rowSumQ (fun _ => 1) (fun _ => 0) (0 * 1) 1)) := by
  refine ⟨fun _ => one_pos, le_refl 1, by decide, by decide, ?_⟩
  exact (claim_C1_fused_matches_reference (fun _ => V.fin 0) (fun _ => 0) 1 1 1 2 0
    (fun _ => 1) (fun _ => one_pos) (le_refl 1) 0 (by decide)).1 (by decide)

/-- Claim C2: on a fixed row where both paths are applicable, the Single-Tile
Path and the Multi-Tile Path write identical values at every in-range column
(exact arithmetic), for any initial contents of the two output buffers. -/
theorem claim_C2_paths_agree (o1 o2 : Mem) (x : ℤ → ℚ) (istr ostr : ℤ) (N B : ℕ)
    (r : ℤ) (e : ℚ → ℚ) (hN : 1 ≤ N) (hNB : N ≤ B) (hBS : 1 ≤ B / 2)
    (hcov : N ≤ 2 * (B / 2)) (c : ℕ) (hc : c < N) :
    (softmax_kernel o1 x istr ostr N r e B).out (r * ostr + (c : ℤ))
      = (softmax_kernel_big_row o2 x istr ostr N r e B).out (r * ostr + (c : ℤ)) := by
  rw [single_out_val o1 x istr ostr N r e B hN hNB c hc,
    bigrow_out_val o2 x istr ostr N r e B hN hBS hcov c hc]

/-- Witness for C2 at `N = 3`, `BLOCK_SIZE = 4`. -/
theorem claim_C2_witness :
    (1 : ℕ) ≤ 3 ∧ (3 : ℕ) ≤ 4 ∧ (1 : ℕ) ≤ 4 / 2 ∧ (3 : ℕ) ≤ 2 * (4 / 2) ∧ (2 : ℕ) < 3 ∧
    (softmax_kernel (fun _ => V.fin 0) (fun a => (a : ℚ)) 1 1 3 0 (fun _ => 1) 4).out
        (0 * 1 + ((2 : ℕ) : ℤ))
      = (softmax_kernel_big_row (fun _ => V.nan) (fun a => (a : ℚ)) 1 1 3 0 (fun _ => 1) 4).out
        (0 * 1 + ((2 : ℕ) : ℤ)) := by
  refine ⟨by decide, by decide, by decide, by decide, by decide, ?_⟩
  exact claim_C2_paths_agree (fun _ => V.fin 0) (fun _ => V.nan) (fun a => (a : ℚ)) 1 1 3 4 0
    (fun _ => 1) (by decide) (by decide) (by decide) (by decide) 2 (by decide)

/-- Claim C3: columns at indices `≥ N` never influence the computed maximum,
the computed exponential sum, or any in-range output value, for any block size
covering the row: the computed maximum and denominator equal the reference
quantities over the `N` true elements only, and two inputs agreeing on the
`N` true elements produce identical in-range outputs. -/
theorem claim_C3_masking_no_leakage (out0 : Mem) (x y : ℤ → ℚ) (istr ostr : ℤ)
    (N B : ℕ) (r : ℤ) (e : ℚ → ℚ) (hN : 1 ≤ N)
    (hagree : ∀ c : ℕ, c < N → x (r * istr + (c : ℤ)) = y (r * istr + (c : ℤ)))
    (c : ℕ) (hc : c < N) :
    (N ≤ B →
      (softmax_kernel out0 x istr ostr N r e B).rowMax = V.fin (rowMaxQ x (r * istr) N)
      ∧ (softmax_kernel out0 x istr ostr N r e B).denom = V.fin (rowSumQ e x (r * istr) N)
      ∧ (softmax_kernel out0 x istr ostr N r e B).out (r * ostr + (c : ℤ))
          = (softmax_kernel out0 y istr ostr N r e B).out (r * ostr + (c : ℤ)))
    ∧ (1 ≤ B / 2 → N ≤ 2 * (B / 2) →
      (softmax_kernel_big_row out0 x istr ostr N r e B).rowMax
          = V.fin (rowMaxQ x (r * istr) N)
      ∧ (softmax_kernel_big_row out0 x istr ostr N r e B).denom
          = V.fin (rowSumQ e x (r * istr) N)
      ∧ (softmax_kernel_big_row out0 x istr ostr N r e B).out (r * ostr + (c : ℤ))
          = (softmax_kernel_big_row out0 y istr ostr N r e B).out (r * ostr + (c : ℤ))) := by
  have hM := rowMaxQ_congr x y (r * istr) N hN hagree
  have hSQ := rowSumQ_congr e x y (r * istr) N hN hagree
  constructor
  · intro hNB
    refine ⟨single_rowMax out0 x istr ostr N r e B hN hNB,
      single_denom out0 x istr ostr N r e B hN hNB, ?_⟩
    rw [single_out_val out0 x istr ostr N r e B hN hNB c hc,
      single_out_val out0 y istr ostr N r e B hN hNB c hc,
      hagree c hc, hM, hSQ]
  · intro hBS hcov
    refine ⟨bigrow_rowMax out0 x istr ostr N r e B hN hBS hcov,
      bigrow_denom out0 x istr ostr N r e B hN hBS hcov, ?_⟩
    rw [bigrow_out_val out0 x istr ostr N r e B hN hBS hcov c hc,
      bigrow_out_val out0 y istr ostr N r e B hN hBS hcov c hc,
      hagree c hc, hM, hSQ]

/-- Witness for C3 at `N = 3`, `B = 4`, with `y` differing from `x` only at
columns `≥ N`. -/
theorem claim_C3_witness :
    (1 : ℕ) ≤ 3 ∧ (∀ c : ℕ, c < 3 → ((0 : ℤ) * 1 + (c : ℤ) : ℚ) = ((0 : ℤ) * 1 + (c : ℤ) : ℚ)) ∧
    (2 : ℕ) < 3 ∧ (3 : ℕ) ≤ 4 ∧
    ((softmax_kernel (fun _ => V.fin 0) (fun a => (a : ℚ)) 1 1 3 0 (fun _ => 1) 4).rowMax
        = V.fin (rowMaxQ (fun a => (a : ℚ)) (0 * 1) 3)
      ∧ (softmax_kernel (fun _ => V.fin 0) (fun a => (a : ℚ)) 1 1 3 0 (fun _ => 1) 4).denom
        = V.fin (rowSumQ (fun _ => 1) (fun a => (a : ℚ)) (0 * 1) 3)
      ∧ (softmax_kernel (fun _ => V.fin 0) (fun a => (a : ℚ)) 1 1 3 0 (fun _ => 1) 4).out
            (0 * 1 + ((2 : ℕ) : ℤ))
          = (softmax_kernel (fun _ => V.fin 0) (fun a => (a : ℚ)) 1 1 3 0 (fun _ => 1) 4).out
            (0 * 1 + ((2 : ℕ) : ℤ))) := by
  refine ⟨by decide, fun c _ => rfl, by decide, by decide, ?_⟩
  exact (claim_C3_masking_no_leakage (fun _ => V.fin 0) (fun a => (a : ℚ)) (fun a => (a : ℚ))
    1 1 3 4 0 (fun _ => 1) (by decide) (fun c _ => rfl) 2 (by decide)).1 (by decide)

/-- Claim C4 counterexample: for the degenerate row `N = 0` the division is
NOT guarded — the kernel computes its denominator as the sum over a fully
masked tile, which is NaN (from `-inf - -inf` under the shift), and performs
the division anyway, producing NaN on chip.  The claim's assertion that "the
program does not divide by the zero sum of zero elements / the division is
guarded so that no not-a-number value is produced" is false at this input. -/
theorem claim_C4_counterexample :
    (softmax_kernel (fun _ => V.fin 0) (fun _ => 0) 1 1 0 0 (fun _ => 1) 4).denom = V.nan
    ∧ (softmax_kernel (fun _ => V.fin 0) (fun _ => 0) 1 1 0 0 (fun _ => 1) 4).vals 0 = V.nan :=
  ⟨rfl, rfl⟩

/-- Claim C4 as amended: for `N = 0` every store is masked out, so although a
NaN quotient is computed on chip, no value — NaN or otherwise — is ever
written: the output memory is completely unchanged (an empty output row), and
no division-by-zero fault occurs (the kernel is a total function). -/
theorem claim_C4_amended (out0 : Mem) (x : ℤ → ℚ) (istr ostr : ℤ) (r : ℤ) (e : ℚ → ℚ)
    (B : ℕ) (a : ℤ) :
    (softmax_kernel out0 x istr ostr 0 r e B).out a = out0 a
    ∧ (1 ≤ B / 2 → (softmax_kernel_big_row out0 x istr ostr 0 r e B).out a = out0 a) := by
  constructor
  · exact single_frame out0 x istr ostr 0 r e B a (fun c hc => absurd hc (by omega))
  · intro hBS
    exact bigrow_frame out0 x istr ostr 0 r e B hBS a (fun c hc => absurd hc (by omega))

/-- Witness for the amended C4 at `B = 4`. -/
theorem claim_C4_witness :
    (1 : ℕ) ≤ 4 / 2 ∧
    ((softmax_kernel (fun _ => V.fin 7) (fun _ => 0) 1 1 0 0 (fun _ => 1) 4).out 0 = V.fin 7
      ∧ (softmax_kernel_big_row (fun _ => V.fin 7) (fun _ => 0) 1 1 0 0 (fun _ => 1) 4).out 0
          = V.fin 7) := by
  refine ⟨by decide, ?_, ?_⟩
  · exact (claim_C4_amended (fun _ => V.fin 7) (fun _ => 0) 1 1 0 (fun _ => 1) 4 0).1
  · exact (claim_C4_amended (fun _ => V.fin 7) (fun _ => 0) 1 1 0 (fun _ => 1) 4 0).2 (by decide)

/-- Claim C5 counterexample: `BLOCK_SIZE` is NOT capped so that no single tile
load stays within the on-chip threshold.  At `n_cols = 131073` the dispatcher
computes `BLOCK_SIZE = 262144` (uncapped next power of two), selects the
multi-tile path, and each of its two tile loads has `131072` elements —
strictly more than the `64*1024` on-chip threshold the claim names. -/
theorem claim_C5_counterexample :
    (softmax_dispatch 131073).usesBigRow = true
    ∧ (softmax_dispatch 131073).BLOCK_SIZE = 262144
    ∧ 64 * 1024 < (softmax_dispatch 131073).BLOCK_SIZE / 2 := by
  refine ⟨?_, next_power_of_2_131073, ?_⟩
  · show decide (64 * 1024 ≤ next_power_of_2 131073) = true
    refine decide_eq_true ?_
    rw [next_power_of_2_131073]
    norm_num
  · show 64 * 1024 < next_power_of_2 131073 / 2
    rw [next_power_of_2_131073]
    norm_num

/-- Claim C5 as amended: the dispatcher computes `BLOCK_SIZE` as the smallest
power of two `≥ n_cols` with NO cap; it selects the single-tile path exactly
when `BLOCK_SIZE < 64*1024` and otherwise the multi-tile path, which
partitions the padded row into exactly 2 equal tiles of `BLOCK_SIZE/2`
elements each (whose size may exceed `64*1024` for very large rows, as the
counterexample shows). -/
theorem claim_C5_amended (n : ℕ) :
    (softmax_dispatch n).BLOCK_SIZE = next_power_of_2 n
    ∧ n ≤ (softmax_dispatch n).BLOCK_SIZE
    ∧ (∃ k : ℕ, (softmax_dispatch n).BLOCK_SIZE = 2 ^ k)
    ∧ (∀ k : ℕ, n ≤ 2 ^ k → (softmax_dispatch n).BLOCK_SIZE ≤ 2 ^ k)
    ∧ (softmax_dispatch n).usesBigRow = decide (64 * 1024 ≤ (softmax_dispatch n).BLOCK_SIZE)
    ∧ ((softmax_dispatch n).usesBigRow = true →
        ∀ (out0 : Mem) (x : ℤ → ℚ) (istr ostr : ℤ) (N : ℕ) (r : ℤ) (e : ℚ → ℚ),
          (softmax_kernel_big_row out0 x istr ostr N r e
              ((softmax_dispatch n).BLOCK_SIZE)).trace
            = [Event.load 0, Event.load (((softmax_dispatch n).BLOCK_SIZE / 2 : ℕ) : ℤ),
               Event.load 0, Event.store 0,
               Event.load (((softmax_dispatch n).BLOCK_SIZE / 2 : ℕ) : ℤ),
               Event.store (((softmax_dispatch n).BLOCK_SIZE / 2 : ℕ) : ℤ)]) := by
  refine ⟨rfl, le_next_power_of_2 n, ⟨Nat.clog 2 n, rfl⟩,
    fun k hk => next_power_of_2_le n k hk, rfl, ?_⟩
  intro hbig out0 x istr ostr N r e
  have h1 : 64 * 1024 ≤ next_power_of_2 n := of_decide_eq_true hbig
  exact bigrow_trace_eq out0 x istr ostr N r e (next_power_of_2 n) (by omega)

/-- Witness for the amended C5 at `n_cols = 131073` (multi-tile) exercising
the two-tile trace. -/
theorem claim_C5_witness :
    (softmax_dispatch 131073).BLOCK_SIZE = next_power_of_2 131073
    ∧ (softmax_dispatch 131073).usesBigRow = true
    ∧ (softmax_kernel_big_row (fun _ => V.fin 0) (fun _ => 0) 1 1 5 0 (fun _ => 1)
          ((softmax_dispatch 131073).BLOCK_SIZE)).trace
        = [Event.load 0, Event.load (((softmax_dispatch 131073).BLOCK_SIZE / 2 : ℕ) : ℤ),
           Event.load 0, Event.store 0,
           Event.load (((softmax_dispatch 131073).BLOCK_SIZE / 2 : ℕ) : ℤ),
           Event.store (((softmax_dispatch 131073).BLOCK_SIZE / 2 : ℕ) : ℤ)] := by
  have hbig : (softmax_dispatch 131073).usesBigRow = true := by
    show decide (64 * 1024 ≤ next_power_of_2 131073) = true
    refine decide_eq_true ?_
    rw [next_power_of_2_131073]
    norm_num
  exact ⟨(claim_C5_amended 131073).1, hbig,
    (claim_C5_amended 131073).2.2.2.2.2 hbig (fun _ => V.fin 0) (fun _ => 0) 1 1 5 0
      (fun _ => 1)⟩

/-- Claim C6: the single-tile path performs exactly one load and one store of
the row; the multi-tile path's full trace is
`load t0, load t1 (phase A); load t0 (phase B: t1 is cached and skipped);
store t0 (phase C: t0 is cached, not reloaded); load t1, store t1`, so each
tile is loaded exactly twice — at most twice as the reload invariant
requires. -/
theorem claim_C6_memory_traffic (out0 : Mem) (x : ℤ → ℚ) (istr ostr : ℤ) (N B : ℕ)
    (r : ℤ) (e : ℚ → ℚ) :
    (softmax_kernel out0 x istr ostr N r e B).trace = [Event.load 0, Event.store 0]
    ∧ (1 ≤ B / 2 →
        (softmax_kernel_big_row out0 x istr ostr N r e B).trace
          = [Event.load 0, Event.load ((B / 2 : ℕ) : ℤ), Event.load 0, Event.store 0,
             Event.load ((B / 2 : ℕ) : ℤ), Event.store ((B / 2 : ℕ) : ℤ)]
        ∧ ∀ cs : ℤ,
            ((softmax_kernel_big_row out0 x istr ostr N r e B).trace.count (Event.load cs))
              ≤ 2) := by
  refine ⟨single_trace out0 x istr ostr N r e B, fun hBS =>
    ⟨bigrow_trace_eq out0 x istr ostr N r e B hBS, ?_⟩⟩
  intro cs
  rw [bigrow_trace_eq out0 x istr ostr N r e B hBS]
  simp only [List.count_cons, List.count_nil]
  split_ifs <;> simp_all <;> omega

/-- Witness for C6 at `B = 4`. -/
theorem claim_C6_witness :
    (1 : ℕ) ≤ 4 / 2
    ∧ (softmax_kernel (fun _ => V.fin 0) (fun _ => 0) 1 1 3 0 (fun _ => 1) 4).trace
        = [Event.load 0, Event.store 0]
    ∧ (softmax_kernel_big_row (fun _ => V.fin 0) (fun _ => 0) 1 1 3 0 (fun _ => 1) 4).trace
        = [Event.load 0, Event.load ((4 / 2 : ℕ) : ℤ), Event.load 0, Event.store 0,
           Event.load ((4 / 2 : ℕ) : ℤ), Event.store ((4 / 2 : ℕ) : ℤ)]
    ∧ ((softmax_kernel_big_row (fun _ => V.fin 0) (fun _ => 0) 1 1 3 0 (fun _ => 1) 4).trace.count
        (Event.load 0)) ≤ 2 := by
  refine ⟨by decide,
    (claim_C6_memory_traffic (fun _ => V.fin 0) (fun _ => 0) 1 1 3 4 0 (fun _ => 1)).1,
    ((claim_C6_memory_traffic (fun _ => V.fin 0) (fun _ => 0) 1 1 3 4 0 (fun _ => 1)).2
      (by decide)).1,
    ((claim_C6_memory_traffic (fun _ => V.fin 0) (fun _ => 0) 1 1 3 4 0 (fun _ => 1)).2
      (by decide)).2 0⟩

/-- Claim C7: each kernel instance writes only inside its own row and only at
columns `< N` — every other output location is left unchanged — and, when the
row stride is at least `N` (a valid matrix layout), the write sets of
distinct rows are disjoint. -/
theorem claim_C7_frame (out0 : Mem) (x : ℤ → ℚ) (istr ostr : ℤ) (N B : ℕ) (r : ℤ)
    (e : ℚ → ℚ) :
    (∀ a : ℤ, (∀ c : ℕ, c < N → a ≠ r * ostr + (c : ℤ)) →
      (softmax_kernel out0 x istr ostr N r e B).out a = out0 a)
    ∧ (1 ≤ B / 2 → ∀ a : ℤ, (∀ c : ℕ, c < N → a ≠ r * ostr + (c : ℤ)) →
      (softmax_kernel_big_row out0 x istr ostr N r e B).out a = out0 a)
    ∧ (∀ (r1 r2 : ℤ) (c1 c2 : ℕ), r1 ≠ r2 → (N : ℤ) ≤ ostr → c1 < N → c2 < N →
        r1 * ostr + (c1 : ℤ) ≠ r2 * ostr + (c2 : ℤ)) := by
  refine ⟨fun a ha => single_frame out0 x istr ostr N r e B a ha,
    fun hBS a ha => bigrow_frame out0 x istr ostr N r e B hBS a ha, ?_⟩
  intro r1 r2 c1 c2 hr hos h1 h2 heq
  have hd : (r1 - r2) * ostr = (c2 : ℤ) - (c1 : ℤ) := by linear_combination heq
  have habs1 : 1 ≤ |r1 - r2| := Int.one_le_abs (sub_ne_zero.mpr hr)
  have hop : 0 < ostr := by omega
  have h5 : |(c2 : ℤ) - (c1 : ℤ)| < ostr := by
    rw [abs_lt]
    constructor <;> omega
  have h6 : ostr ≤ |(r1 - r2) * ostr| := by
    rw [abs_mul, abs_of_pos hop]
    exact le_mul_of_one_le_left (le_of_lt hop) habs1
  rw [hd] at h6
  linarith

/-- Witness for C7: untouched address, and disjointness of rows 0 and 1. -/
theorem claim_C7_witness :
    (∀ c : ℕ, c < 3 → (5 : ℤ) ≠ 0 * 1 + (c : ℤ))
    ∧ (softmax_kernel (fun _ => V.fin 9) (fun _ => 0) 1 1 3 0 (fun _ => 1) 4).out 5 = V.fin 9
    ∧ (softmax_kernel_big_row (fun _ => V.fin 9) (fun _ => 0) 1 1 3 0 (fun _ => 1) 4).out 5
        = V.fin 9
    ∧ (0 : ℤ) * 3 + ((2 : ℕ) : ℤ) ≠ 1 * 3 + ((0 : ℕ) : ℤ) := by
  have hfar : ∀ c : ℕ, c < 3 → (5 : ℤ) ≠ 0 * 1 + (c : ℤ) := fun c hc => by omega
  refine ⟨hfar, ?_, ?_, ?_⟩
  · exact (claim_C7_frame (fun _ => V.fin 9) (fun _ => 0) 1 1 3 4 0 (fun _ => 1)).1 5 hfar
  · exact (claim_C7_frame (fun _ => V.fin 9) (fun _ => 0) 1 1 3 4 0 (fun _ => 1)).2.1
      (by decide) 5 hfar
  · exact (claim_C7_frame (fun _ => V.fin 9) (fun _ => 0) 1 3 3 4 0 (fun _ => 1)).2.2
      0 1 2 0 (by decide) (by decide) (by decide) (by decide)

/-- Claim C8: a row whose `N` true elements all equal the constant `q0`
produces the output `1/N` at every in-range position, on both paths
(max-subtraction gives 0, `e 0 = 1`, the sum is `N`). -/
theorem claim_C8_uniform_row (out0 : Mem) (x : ℤ → ℚ) (istr ostr : ℤ) (N B : ℕ) (r : ℤ)
    (e : ℚ → ℚ) (q0 : ℚ) (hN : 1 ≤ N)
    (hconst : ∀ c : ℕ, c < N → x (r * istr + (c : ℤ)) = q0)
    (he0 : e 0 = 1) (c : ℕ) (hc : c < N) :
    (N ≤ B →
      (softmax_kernel out0 x istr ostr N r e B).out (r * ostr + (c : ℤ))
        = V.fin (1 / (N : ℚ)))
    ∧ (1 ≤ B / 2 → N ≤ 2 * (B / 2) →
      (softmax_kernel_big_row out0 x istr ostr N r e B).out (r * ostr + (c : ℤ))
        = V.fin (1 / (N : ℚ))) := by
  have hM : rowMaxQ x (r * istr) N = q0 := by
    refine segMax_const x (r * istr) q0 N ?_ hN
    intro i hi
    exact hconst i (by omega)
  have hS : rowSumQ e x (r * istr) N = (N : ℚ) := by
    unfold rowSumQ
    rw [hM]
    refine segSumQ_const e x (r * istr) q0 N ?_
    intro i hi
    rw [hconst i (by omega), sub_self, he0]
  have hval : e (x (r * istr + (c : ℤ)) - rowMaxQ x (r * istr) N) = 1 := by
    rw [hM, hconst c hc, sub_self, he0]
  have hNne : (N : ℚ) ≠ 0 := Nat.cast_ne_zero.mpr (by omega)
  constructor
  · intro hNB
    rw [single_out_val out0 x istr ostr N r e B hN hNB c hc, hval, hS,
      divV_fin_fin _ _ hNne]
  · intro hBS hcov
    rw [bigrow_out_val out0 x istr ostr N r e B hN hBS hcov c hc, hval, hS,
      divV_fin_fin _ _ hNne]

/-- Witness for C8: constant row of 5s, `N = 2`, both paths give `1/2`. -/
theorem claim_C8_witness :
    (1 : ℕ) ≤ 2 ∧ (∀ c : ℕ, c < 2 → ((5 : ℚ) = 5)) ∧ (1 : ℕ) < 2 ∧ (2 : ℕ) ≤ 2 ∧
    (softmax_kernel (fun _ => V.fin 0) (fun _ => 5) 1 1 2 0 (fun _ => 1) 2).out
        (0 * 1 + ((1 : ℕ) : ℤ))
      = V.fin (1 / ((2 : ℕ) : ℚ))
    ∧ (softmax_kernel_big_row (fun _ => V.fin 0) (fun _ => 5) 1 1 2 0 (fun _ => 1) 2).out
        (0 * 1 + ((1 : ℕ) : ℤ))
      = V.fin (1 / ((2 : ℕ) : ℚ)) := by
  refine ⟨by decide, fun _ _ => rfl, by decide, by decide, ?_, ?_⟩
  · exact (claim_C8_uniform_row (fun _ => V.fin 0) (fun _ => 5) 1 1 2 2 0 (fun _ => 1) 5
      (by decide) (fun _ _ => rfl) rfl 1 (by decide)).1 (by decide)
  · exact (claim_C8_uniform_row (fun _ => V.fin 0) (fun _ => 5) 1 1 2 2 0 (fun _ => 1) 5
      (by decide) (fun _ _ => rfl) rfl 1 (by decide)).2 (by decide) (by decide)

/-- Claim C9: the dispatcher's `num_warps` hint is the step function 4 / 8 /
16 / 32 with thresholds 2048, 4096, 8096 of `BLOCK_SIZE`, and it is monotone
non-decreasing in `BLOCK_SIZE`; the dispatcher instantiates it at the chosen
`BLOCK_SIZE`. -/
theorem claim_C9_num_warps (n b1 b2 : ℕ) (h : b1 ≤ b2) :
    num_warps_of b1 ≤ num_warps_of b2
    ∧ (b1 < 2048 → num_warps_of b1 = 4)
    ∧ (2048 ≤ b1 → b1 < 4096 → num_warps_of b1 = 8)
    ∧ (4096 ≤ b1 → b1 < 8096 → num_warps_of b1 = 16)
    ∧ (8096 ≤ b1 → num_warps_of b1 = 32)
    ∧ (softmax_dispatch n).num_warps = num_warps_of (softmax_dispatch n).BLOCK_SIZE := by
  refine ⟨?_, ?_, ?_, ?_, ?_, rfl⟩
  · simp only [num_warps_of]
    split_ifs <;> omega
  · intro h1
    simp only [num_warps_of]
    split_ifs <;> omega
  · intro h1 h2
    simp only [num_warps_of]
    split_ifs <;> omega
  · intro h1 h2
    simp only [num_warps_of]
    split_ifs <;> omega
  · intro h1
    simp only [num_warps_of]
    split_ifs <;> omega

/-- Witness for C9 at `b1 = 1000 ≤ b2 = 5000`. -/
theorem claim_C9_witness :
    (1000 : ℕ) ≤ 5000 ∧ num_warps_of 1000 ≤ num_warps_of 5000
    ∧ ((1000 : ℕ) < 2048 → num_warps_of 1000 = 4) := by
  refine ⟨by decide, (claim_C9_num_warps 0 1000 5000 (by decide)).1,
    (claim_C9_num_warps 0 1000 5000 (by decide)).2.1⟩

/-- Claim C10: whenever the dispatcher selects the multi-tile path
(`next_power_of_2 N ≥ 64*1024`), the two tiles of size `BLOCK_SIZE/2` satisfy
`BLOCK_SIZE/2 < N ≤ 2*(BLOCK_SIZE/2)`: they exactly cover the padded row,
each tile has at least one unmasked element (its first position is a true
column), and the row never exceeds the two tiles' combined capacity. -/
theorem claim_C10_dispatcher_invariant (N : ℕ) (hbig : 64 * 1024 ≤ next_power_of_2 N) :
    next_power_of_2 N / 2 < N
    ∧ N ≤ 2 * (next_power_of_2 N / 2)
    ∧ (∃ i : ℕ, i < next_power_of_2 N / 2 ∧ (0 : ℤ) + (i : ℤ) < (N : ℤ))
    ∧ (∃ i : ℕ, i < next_power_of_2 N / 2
        ∧ ((next_power_of_2 N / 2 : ℕ) : ℤ) + (i : ℤ) < (N : ℤ)) := by
  have hBdef : next_power_of_2 N = 2 ^ Nat.clog 2 N := rfl
  have hk16 : 16 ≤ Nat.clog 2 N := by
    have h1 : (2 : ℕ) ^ 16 ≤ 2 ^ Nat.clog 2 N := by
      calc (2 : ℕ) ^ 16 = 64 * 1024 := by norm_num
        _ ≤ next_power_of_2 N := hbig
        _ = 2 ^ Nat.clog 2 N := rfl
    exact (Nat.pow_le_pow_iff_right (by norm_num)).mp h1
  have hNle : N ≤ 2 ^ Nat.clog 2 N := Nat.le_pow_clog (by norm_num) N
  have hsucc : Nat.clog 2 N - 1 + 1 = Nat.clog 2 N := by omega
  have hdouble : 2 ^ (Nat.clog 2 N - 1) * 2 = 2 ^ Nat.clog 2 N := by
    rw [← pow_succ, hsucc]
  have hhalf : next_power_of_2 N / 2 = 2 ^ (Nat.clog 2 N - 1) := by
    rw [hBdef, ← hdouble]
    exact Nat.mul_div_cancel _ (by norm_num)
  have hlt : 2 ^ (Nat.clog 2 N - 1) < N := by
    by_contra hle
    push_neg at hle
    have hclog : Nat.clog 2 N ≤ Nat.clog 2 N - 1 :=
      (Nat.le_pow_iff_clog_le (by norm_num)).mp hle
    omega
  refine ⟨by omega, by omega, ⟨0, by omega, by omega⟩, ⟨0, by omega, by omega⟩⟩

/-- Witness for C10 at `N = 65537` (`BLOCK_SIZE = 131072`). -/
theorem claim_C10_witness :
    64 * 1024 ≤ next_power_of_2 65537
    ∧ next_power_of_2 65537 / 2 < 65537
    ∧ 65537 ≤ 2 * (next_power_of_2 65537 / 2) := by
  have h : 64 * 1024 ≤ next_power_of_2 65537 := by
    rw [next_power_of_2_65537]
    norm_num
  exact ⟨h, (claim_C10_dispatcher_invariant 65537 h).1,
    (claim_C10_dispatcher_invariant 65537 h).2.1⟩

end FusedSoftmax
